import Mathlib

/-!
# ai-db-explorer: verification of the broker/tokenization specification

Shallow embedding of the observable contracts of the `ai-db-explorer`
repository: the length-prefixed frame codec and Content-Length framing used
by the integration tests, the broker handshake state machine, the resume
token store rotation, the query gateway policy, and the tokenization engine.

Byte streams are modelled as `List Nat` (socket level) and `List Char`
(text level).  The helper functions of the Python integration tests
(`_recv_exact`, `_send_len_prefixed`, `_build_handshake_req_bytes`,
`write_frame`, `read_frame`, `_parse_token`) are translated directly; the
broker itself (a C program not shipped with the test suite) is modelled
from the specification where noted.

Nondeterministic I/O chunking (a socket `recv(k)` or pipe `read(k)` may
return between 1 and `k` bytes) is modelled by a `sched : List Nat` oracle
choosing each chunk's size; theorems quantify over all oracles.  Loops
whose Python form runs until a byte count is reached use an explicit
structural fuel argument so concrete runs evaluate by `rfl`; the stated
fuel always suffices, and the fuel-exhaustion branch returns the same
error as a closed stream.
-/

namespace AiDbExplorer

/-! ## Definitions

### Decimal digit strings

The tokens and the `Content-Length` headers carry non-negative decimal
integers.  `natToChars` renders a `Nat` the way Python's `str`/`%d` does
(most significant digit first, no sign, no padding); `parseNatDigits` is
the digits-only fragment of Python's `int`.
-/

/-- One decimal digit `d < 10` as a character. -/
def decDigitChar (d : Nat) : Char := Char.ofNat (48 + d)

/-- Fueled rendering loop: emits the digits of `n` in front of `acc`;
`fuel = n + 1` always suffices. -/
def natToCharsGo : Nat → Nat → List Char → List Char
  | 0, _, acc => acc
  | fuel + 1, n, acc =>
    if n < 10 then decDigitChar n :: acc
    else natToCharsGo fuel (n / 10) (decDigitChar (n % 10) :: acc)

/-- Decimal rendering of a natural number, e.g. `natToChars 120 = "120".data`. -/
def natToChars (n : Nat) : List Char := natToCharsGo (n + 1) n []

/-- Decimal digit test on the `Nat` code of a character (`'0'..'9'`). -/
def isDigitChar (c : Char) : Bool := 48 ≤ c.toNat && c.toNat ≤ 57

/-- Value of a decimal digit character. -/
def digitVal (c : Char) : Option Nat :=
  if isDigitChar c then some (c.toNat - 48) else none

/-- Left-to-right accumulator loop of a digits-only integer parse. -/
def parseNatDigitsGo : List Char → Nat → Option Nat
  | [], acc => some acc
  | c :: cs, acc =>
    match digitVal c with
    | some d => parseNatDigitsGo cs (acc * 10 + d)
    | none => none

/-- Parse a non-empty all-digits string, the core of Python's `int`. -/
def parseNatDigits (l : List Char) : Option Nat :=
  if l.isEmpty then none else parseNatDigitsGo l 0

/-! ### Python-style `strip` and `int`

`_parse_token` and `read_frame` feed header/token fragments through
Python's `int`, which strips surrounding whitespace and accepts an
optional sign before the digits.  (Python `int` additionally allows
underscore digit grouping, which no writer in this codebase produces.)
-/

/-- Whitespace as removed by Python's `str.strip` (ASCII portion). -/
def isWsChar (c : Char) : Bool :=
  c.toNat = 32 || c.toNat = 9 || c.toNat = 10 || c.toNat = 13 ||
    c.toNat = 11 || c.toNat = 12

/-- `str.strip()`: remove leading and trailing whitespace. -/
def pyStrip (l : List Char) : List Char :=
  ((l.dropWhile isWsChar).reverse.dropWhile isWsChar).reverse

/-- Sign/digit dispatch of Python `int` on already-stripped text. -/
def parsePyIntCore : List Char → Option Int
  | [] => none
  | c :: cs =>
    if c = '+' then (parseNatDigits cs).map Int.ofNat
    else if c = '-' then (parseNatDigits cs).map (fun m => -(m : Int))
    else (parseNatDigits (c :: cs)).map Int.ofNat

/-- Python `int(text)` on a character list: strip, optional sign, digits. -/
def parsePyInt (l : List Char) : Option Int := parsePyIntCore (pyStrip l)

/-! ### Token text format

A token reads `tok_<connectionName>_<generation>_<index>`
(spec §4.6; `_parse_token` in `test_token_generation.py`).  The parser
mirrors `_parse_token`: check the `tok_` prefix, split the tail at its
last two underscores (`str.rsplit("_", 2)`), parse both numeric fields
with `int`, and require them to be non-negative.
-/

/-- The fixed token prefix `"tok_"`. -/
def tokPrefix : List Char := ['t', 'o', 'k', '_']

/-- Token text for connection `conn`, generation `g`, index `i`. -/
def renderToken (conn : List Char) (g i : Nat) : List Char :=
  tokPrefix ++ conn ++ '_' :: natToChars g ++ '_' :: natToChars i

/-- Split a list at the last occurrence of `sep` (one step of `rsplit`). -/
def rsplitOnce (sep : Char) : List Char → Option (List Char × List Char)
  | [] => none
  | c :: rest =>
    match rsplitOnce sep rest with
    | some (a, b) => some (c :: a, b)
    | none => if c = sep then some ([], rest) else none

/-- Translation of `_parse_token` (`test_token_generation.py`). -/
def parseToken (t : List Char) : Option (List Char × Nat × Nat) :=
  if tokPrefix.isPrefixOf t then
    match rsplitOnce '_' (t.drop 4) with
    | some (rest1, idxTxt) =>
      match rsplitOnce '_' rest1 with
      | some (connName, genTxt) =>
        match parsePyInt genTxt, parsePyInt idxTxt with
        | some g, some i =>
          if 0 ≤ g ∧ 0 ≤ i then some (connName, g.toNat, i.toNat) else none
        | some _, none => none
        | none, _ => none
      | none => none
    | none => none
  else none

/-! ### Tokenization Engine -/

/-- Modelled from the spec: per-connection TokenMapping state for
`deterministic` mode (§3, §4.6) — the `rawValue → index` dictionary, the
current `generation`, and the next free `index`.  The engine itself ships
only in the compiled broker; its dictionary behaviour is specified in
§4.6 and observed by `test_token_generation.py`. -/
structure DetState where
  mapping : List (List Char × Nat)
  generation : Nat
  nextIndex : Nat

/-- Modelled from the spec: `deterministic` tokenize (§4.6) — look up
`rawValue`; if present return the existing token, otherwise allocate the
next `index` in the current `generation` and store the mapping. -/
def detTokenize (conn : List Char) (raw : List Char) (st : DetState) :
    List Char × DetState :=
  match st.mapping.lookup raw with
  | some i => (renderToken conn st.generation i, st)
  | none =>
    (renderToken conn st.generation st.nextIndex,
      { st with
        mapping := (raw, st.nextIndex) :: st.mapping,
        nextIndex := st.nextIndex + 1 })

/-- Modelled from the spec: `randomized` mode state (§4.6) — no mapping,
only the generation and a monotone index counter. -/
structure RandState where
  generation : Nat
  nextIndex : Nat

/-- Modelled from the spec: `randomized` tokenize (§4.6) — allocate a new
`index` on every call, regardless of the raw value (the `raw` argument is
deliberately unused); never consult or update a mapping. -/
def randTokenize (conn : List Char) (raw : List Char) (st : RandState) :
    List Char × RandState :=
  (renderToken conn st.generation st.nextIndex,
    { st with nextIndex := st.nextIndex + 1 })

/-- State after tokenizing a whole list of raw values in order. -/
def detTokenizeMany (conn : List Char) (raws : List (List Char))
    (st : DetState) : DetState :=
  raws.foldl (fun s r => (detTokenize conn r s).2) st

/-- State after randomized-tokenizing a whole list of raw values. -/
def randTokenizeMany (conn : List Char) (raws : List (List Char))
    (st : RandState) : RandState :=
  raws.foldl (fun s r => (randTokenize conn r s).2) st

/-! ### Binary frame codec (socket level)

Wire scalars are big-endian (`struct.pack(">IHH32s32s")`,
`struct.pack(">I")` in `test_broker_mcp_handshake.py`). -/

/-- Big-endian 16-bit encoding of `n % 2^16`. -/
def be16 (n : Nat) : List Nat := [n / 256 % 256, n % 256]

/-- Big-endian 32-bit encoding of `n % 2^32`. -/
def be32 (n : Nat) : List Nat :=
  [n / 16777216 % 256, n / 65536 % 256, n / 256 % 256, n % 256]

/-- `struct.unpack(">H", ·)` on exactly two bytes. -/
def be16decode : List Nat → Nat
  | [a, b] => a * 256 + b
  | _ => 0

/-- `struct.unpack(">I", ·)` on exactly four bytes. -/
def be32decode : List Nat → Nat
  | [a, b, c, d] => ((a * 256 + b) * 256 + c) * 256 + d
  | _ => 0

/-- Size in bytes of one recv/read chunk: the scheduler's pick, clamped to
at least 1 and to at most both the wanted and the available count. -/
def recvChunkLen (want avail hint : Nat) : Nat :=
  min (min want avail) (max 1 hint)

/-- Translation of the `_recv_exact` loop (`test_broker_mcp_handshake.py`):
accumulate chunks until `n` bytes are held; an empty chunk (closed stream)
raises.  `fuel = n` suffices since every chunk is non-empty. -/
def recvExactGo (fuel n : Nat) (acc bs sched : List Nat) :
    Except String (List Nat × List Nat) :=
  if acc.length < n then
    match bs, fuel with
    | [], _ => .error "unexpected EOF while reading broker frame"
    | _ :: _, 0 => .error "unexpected EOF while reading broker frame"
    | b :: rest, fuel' + 1 =>
      let k := recvChunkLen (n - acc.length) (b :: rest).length
        (sched.headD (n - acc.length))
      recvExactGo fuel' n (acc ++ (b :: rest).take k) ((b :: rest).drop k)
        sched.tail
  else .ok (acc, bs)

/-- `_recv_exact(client, n)` with the unread stream returned as well. -/
def recvExactState (n : Nat) (bs sched : List Nat) :
    Except String (List Nat × List Nat) :=
  recvExactGo n n [] bs sched

/-- `_recv_exact(client, n)`: exactly `n` bytes or an error. -/
def recvExact (n : Nat) (bs sched : List Nat) : Except String (List Nat) :=
  (recvExactState n bs sched).map Prod.fst

/-- Translation of `_read_len_prefixed`: a 4-byte big-endian length header,
then exactly that many payload bytes. -/
def readLenPrefixed (bs sched₁ sched₂ : List Nat) : Except String (List Nat) :=
  (recvExactState 4 bs sched₁).bind fun hr =>
    recvExact (be32decode hr.1) hr.2 sched₂

/-- Translation of `_send_len_prefixed`: reject a declared length that does
not fit `uint32` or is smaller than the payload, otherwise emit the 4-byte
big-endian declared length followed by the payload (which deliberately may
be *shorter* than declared — the tests use that to send truncated frames). -/
def sendLenPrefixed (declaredLen : Nat) (payload : List Nat) :
    Except String (List Nat) :=
  if 4294967295 < declaredLen then .error "declared_len must fit uint32"
  else if declaredLen < payload.length then
    .error "payload cannot exceed declared length"
  else .ok (be32 declaredLen ++ payload)

/-! ### Handshake wire format -/

/-- `HANDSHAKE_MAGIC = 0x4D435042` (`"MCPB"`). -/
def handshakeMagic : Nat := 0x4D435042

/-- `HANDSHAKE_VERSION = 1`. -/
def handshakeVersion : Nat := 1

/-- `SECRET_TOKEN_LEN`/`RESUME_TOKEN_LEN` are both 32. -/
def secretTokenLen : Nat := 32

/-- `HANDSHAKE_REQ_WIRE_SIZE = 4 + 2 + 2 + 32 + 32 = 72`. -/
def handshakeReqWireSize : Nat := 4 + 2 + 2 + 32 + 32

/-- `HANDSHAKE_RESP_WIRE_SIZE = 4 + 2 + 2 + 32 + 4 + 4 = 48`. -/
def handshakeRespWireSize : Nat := 4 + 2 + 2 + 32 + 4 + 4

/-- Translation of `_build_handshake_req_bytes`: big-endian
`magic:u32, version:u16=1, reserved:u16=0`, a 32-byte zero resume token,
then the 32-byte secret token. -/
def buildHandshakeReq (secret : List Nat) (magic : Nat := handshakeMagic) :
    List Nat :=
  be32 magic ++ be16 handshakeVersion ++ be16 0 ++
    List.replicate 32 0 ++ secret

/-- Modelled from the spec: the broker's success reply (§4.4, §6) —
`magic:u32, version:u16, status:u16=0 (HS_OK), newResumeToken:[32]byte,
trailer:[8]byte`, 48 bytes total. -/
def handshakeOkResp (newTok : List Nat) : List Nat :=
  be32 handshakeMagic ++ be16 handshakeVersion ++ be16 0 ++
    newTok ++ List.replicate 8 0

/-! ### Session Broker state machine -/

/-- Modelled from the spec: session states (§3, §4.4). -/
inductive SessionState
  | awaitingHandshake
  | authenticated
  | closed
deriving DecidableEq

/-- Modelled from the spec: the Session Broker's handling of one fresh
connection (§4.4 transition table, §4.3 rotate) — absent from the test
suite sources, which only drive the compiled broker binary.  `input` is
every byte the client sends before closing; `entropy` is the fresh random
32-byte value the resume store would draw; `store` is the stored resume
token for the caller identity.  Returns the bytes written back, the final
session state, and the new store content.  Every malformed path closes
with no reply and leaves the store untouched; a well-formed, verified
handshake replies with `handshakeOkResp`, authenticates, and rotates the
stored token.  The presented resume-token field is not required to match
the store (unknown/stale tokens degrade to a fresh session, §4.4). -/
def handleConn (secret entropy : List Nat) (store : Option (List Nat))
    (input : List Nat) : List Nat × SessionState × Option (List Nat) :=
  if input.length < 4 then ([], .closed, store)
  else
    let declared := be32decode (input.take 4)
    let rest := input.drop 4
    if rest.length < declared then ([], .closed, store)
    else
      let payload := rest.take declared
      if declared ≠ handshakeReqWireSize then ([], .closed, store)
      else
        let magic := be32decode (payload.take 4)
        let version := be16decode ((payload.drop 4).take 2)
        let secretField := (payload.drop 40).take 32
        if magic ≠ handshakeMagic ∨ version ≠ handshakeVersion ∨
            secretField ≠ secret then ([], .closed, store)
        else (handshakeOkResp entropy, .authenticated, some entropy)

/-- A full handshake cycle's effect on the stored resume token. -/
def handshakeCycleStore (secret entropy : List Nat)
    (store : Option (List Nat)) : Option (List Nat) :=
  (handleConn secret entropy store
    (be32 handshakeReqWireSize ++ buildHandshakeReq secret)).2.2

/-! ### Query Gateway -/

/-- Modelled from the spec: a connection profile's policy surface (§3,
§4.5) — the columns marked sensitive and the functions marked unsafe. -/
structure Profile where
  name : List Char
  sensitiveCols : List (List Char)
  unsafeFuncs : List (List Char)

/-- The policy-relevant shape of a query: selected columns, columns
referenced by filter predicates, and invoked functions. -/
structure SqlQuery where
  selectCols : List (List Char)
  whereCols : List (List Char)
  funcs : List (List Char)

/-- Structured gateway errors (§4.5, §7): each names the offending
object and is built from the name alone. -/
inductive GwError
  | unknownConnection (name : List Char)
  | sensitiveColumn (col : List Char)
  | unsafeFunction (fn : List Char)
deriving DecidableEq

/-- Error message text: names the blocked object, never a data value. -/
def renderGwError : GwError → List Char
  | .unknownConnection n => "unknown connection: ".data ++ n
  | .sensitiveColumn c => "query references sensitive column ".data ++ c
  | .unsafeFunction f => "query calls unsafe function ".data ++ f

/-- One cell of a result row: the raw value for an ordinary column, a
deterministic token for a sensitive one. -/
def tokenizeCell (p : Profile) (row : List (List Char × List Char))
    (acc : List (List Char) × DetState) (c : List Char) :
    List (List Char) × DetState :=
  let v := (row.lookup c).getD []
  if p.sensitiveCols.contains c then
    let ts := detTokenize p.name v acc.2
    (acc.1 ++ [ts.1], ts.2)
  else (acc.1 ++ [v], acc.2)

/-- Produce one output row: raw values for ordinary columns, tokens for
sensitive ones, threading the deterministic tokenizer state. -/
def tokenizeRow (p : Profile) (row : List (List Char × List Char))
    (cols : List (List Char)) (st : DetState) :
    List (List Char) × DetState :=
  cols.foldl (tokenizeCell p row) ([], st)

/-- Modelled from the spec: the Query Gateway's policy check and result
tokenization (§4.5, §4.6), with the check on sensitive columns placed on
*predicate references* rather than on direct selection, as observed in
`test_run_sql_sensitive` (`test_mcp_run_sql.py`): `SELECT g.real_name …`
succeeds with a tokenized value while `… WHERE g.real_name = 'Angelo'` is
rejected naming the column.  Unsafe functions are rejected by name; all
checks run before any row data is consulted.  `row` maps column names to
raw values; selected sensitive columns are tokenized deterministically. -/
def execute (p : Profile) (q : SqlQuery)
    (row : List (List Char × List Char)) (st : DetState) :
    Except GwError (List (List Char) × DetState) :=
  match q.funcs.find? (fun f => p.unsafeFuncs.contains f) with
  | some f => .error (.unsafeFunction f)
  | none =>
    match q.whereCols.find? (fun c => p.sensitiveCols.contains c) with
    | some c => .error (.sensitiveColumn c)
    | none => .ok (tokenizeRow p row q.selectCols st)

/-! ### Content-Length framing (`write_frame` / `read_frame`)

`write_frame` and `read_frame` (`test_user_mcp_handshake.py`, duplicated
in `test_mcp_handshake.py`) frame JSON-RPC payloads with an ASCII
`Content-Length: <n>\r\n\r\n` header on a byte pipe. -/

/-- The header terminator `"\r\n\r\n"`. -/
def crlf2 : List Char := ['\r', '\n', '\r', '\n']

/-- The header key `"Content-Length:"` (15 characters). -/
def clPrefix : List Char := "Content-Length:".data

/-- The header line written by `write_frame` for payload length `n`
(without the terminator): `"Content-Length: " ++ digits`. -/
def clHeaderLine (n : Nat) : List Char := "Content-Length: ".data ++ natToChars n

/-- Translation of `write_frame`: the full byte sequence written —
header line, terminator, then the payload verbatim. -/
def writeFrameBytes (payload : List Char) : List Char :=
  clHeaderLine payload.length ++ crlf2 ++ payload

/-- Does `pat` occur as a contiguous run inside `l` (Python `in` on bytes)? -/
def containsSeq (pat : List Char) : List Char → Bool
  | [] => pat.isEmpty
  | c :: rest => pat.isPrefixOf (c :: rest) || containsSeq pat rest

/-- Translation of the header scan loop of `read_frame`: read one byte at
a time until the buffer contains `"\r\n\r\n"`; fail on end of stream, or
as soon as the buffer exceeds 256 bytes. -/
def scanHeaderGo : List Char → List Char → Option (List Char × List Char)
  | buf, [] => if containsSeq crlf2 buf then some (buf, []) else none
  | buf, c :: rest =>
    if containsSeq crlf2 buf then some (buf, c :: rest)
    else if 256 < buf.length + 1 then none
    else scanHeaderGo (buf ++ [c]) rest

/-- `buf.split(sep, 1)`: split at the first occurrence of `pat`. -/
def splitOnFirst (pat : List Char) : List Char → Option (List Char × List Char)
  | [] => if pat.isEmpty then some ([], []) else none
  | c :: rest =>
    if pat.isPrefixOf (c :: rest) then some ([], (c :: rest).drop pat.length)
    else
      match splitOnFirst pat rest with
      | some ab => some (c :: ab.1, ab.2)
      | none => none

/-- Line-break characters of Python's `str.splitlines`. -/
def isLineBreakChar (c : Char) : Bool :=
  c.toNat = 10 || c.toNat = 13 || c.toNat = 11 || c.toNat = 12 ||
    c.toNat = 28 || c.toNat = 29 || c.toNat = 30 || c.toNat = 133 ||
    c.toNat = 8232 || c.toNat = 8233

/-- Python `str.splitlines`, accumulating the current line in `cur`. -/
def splitLinesGo : List Char → List Char → List (List Char)
  | cur, [] => if cur.isEmpty then [] else [cur]
  | cur, '\r' :: '\n' :: rest => cur :: splitLinesGo [] rest
  | cur, c :: rest =>
    if c = '\r' || isLineBreakChar c then cur :: splitLinesGo [] rest
    else splitLinesGo (cur ++ [c]) rest

/-- Python `str.splitlines`. -/
def splitLines (l : List Char) : List (List Char) := splitLinesGo [] l

/-- Payload loop of `read_frame`: extend `payload` with chunks of up to
the missing byte count until `n` bytes are held; `fuel = n` suffices. -/
def readPayloadGo (fuel n : Nat) (payload stream : List Char)
    (sched : List Nat) : Option (List Char × List Char) :=
  if payload.length < n then
    match stream, fuel with
    | [], _ => none
    | _ :: _, 0 => none
    | c :: rest, fuel' + 1 =>
      let k := recvChunkLen (n - payload.length) (c :: rest).length
        (sched.headD (n - payload.length))
      readPayloadGo fuel' n (payload ++ (c :: rest).take k)
        ((c :: rest).drop k) sched.tail
  else some (payload, stream)

/-- Translation of `read_frame`: scan the header byte-wise, split at the
first `"\r\n\r\n"`, find the `Content-Length` line, parse its value with
`int`, then read exactly that many payload bytes.  Returns the payload and
the unread rest of the stream.  (A parsed negative length behaves like 0:
the Python loop body never runs, so the split remainder is returned.) -/
def readFrame (stream : List Char) (sched : List Nat) :
    Option (List Char × List Char) :=
  match scanHeaderGo [] stream with
  | none => none
  | some br =>
    match splitOnFirst crlf2 br.1 with
    | none => none
    | some hr =>
      if containsSeq clPrefix hr.1 then
        match (splitLines hr.1).find? (fun l => clPrefix.isPrefixOf l) with
        | none => none
        | some line =>
          match parsePyInt (line.drop 15) with
          | none => none
          | some n => readPayloadGo n.toNat n.toNat hr.2 br.2 sched
      else none

/-! ## Theorems -/

theorem decDigitChar_isDigit : ∀ d < 10, isDigitChar (decDigitChar d) = true := by
  decide

theorem digitVal_decDigitChar : ∀ d < 10, digitVal (decDigitChar d) = some d := by
  decide

theorem natToCharsGo_acc (fuel : Nat) :
    ∀ (n : Nat) (acc : List Char),
      natToCharsGo fuel n acc = natToCharsGo fuel n [] ++ acc := by
  induction fuel with
  | zero => intro n acc; simp [natToCharsGo]
  | succ f ih =>
    intro n acc
    by_cases h : n < 10
    · simp [natToCharsGo, h]
    · simp only [natToCharsGo, h, if_false]
      rw [ih (n / 10) (decDigitChar (n % 10) :: acc),
        ih (n / 10) [decDigitChar (n % 10)]]
      simp

theorem natToCharsGo_fuel :
    ∀ (f₁ : Nat) (n : Nat) (f₂ : Nat), n < f₁ → n < f₂ →
      natToCharsGo f₁ n [] = natToCharsGo f₂ n [] := by
  intro f₁
  induction f₁ with
  | zero => intro n f₂ h₁ _; omega
  | succ g ih =>
    intro n f₂ h₁ h₂
    cases f₂ with
    | zero => omega
    | succ g₂ =>
      by_cases h : n < 10
      · simp [natToCharsGo, h]
      · simp only [natToCharsGo, h, if_false]
        rw [natToCharsGo_acc g, natToCharsGo_acc g₂]
        have hn : 0 < n := by omega
        have hd : n / 10 < n := Nat.div_lt_self hn (by omega)
        rw [ih (n / 10) g₂ (by omega) (by omega)]

theorem natToChars_lt (n : Nat) (h : n < 10) :
    natToChars n = [decDigitChar n] := by
  simp [natToChars, natToCharsGo, h]

theorem natToChars_ge (n : Nat) (h : 10 ≤ n) :
    natToChars n = natToChars (n / 10) ++ [decDigitChar (n % 10)] := by
  have h' : ¬ n < 10 := by omega
  have hd : n / 10 < n := Nat.div_lt_self (by omega) (by omega)
  unfold natToChars
  conv_lhs => rw [natToCharsGo, if_neg h']
  rw [natToCharsGo_acc n]
  rw [natToCharsGo_fuel n (n / 10) (n / 10 + 1) (by omega) (by omega)]

/-- Every rendered character is a decimal digit. -/
theorem natToChars_digits (n : Nat) :
    ∀ c ∈ natToChars n, isDigitChar c = true := by
  induction n using Nat.strong_induction_on with
  | _ n ih =>
    by_cases h : n < 10
    · rw [natToChars_lt n h]
      intro c hc
      rcases List.mem_singleton.mp hc with rfl
      exact decDigitChar_isDigit n h
    · rw [natToChars_ge n (by omega)]
      intro c hc
      rcases List.mem_append.mp hc with h1 | h1
      · exact ih (n / 10) (Nat.div_lt_self (by omega) (by omega)) c h1
      · rcases List.mem_singleton.mp h1 with rfl
        exact decDigitChar_isDigit (n % 10) (Nat.mod_lt n (by omega))

theorem natToChars_ne_nil (n : Nat) : natToChars n ≠ [] := by
  by_cases h : n < 10
  · rw [natToChars_lt n h]; simp
  · rw [natToChars_ge n (by omega)]; simp

theorem parseNatDigitsGo_append (l₁ l₂ : List Char) :
    ∀ a, parseNatDigitsGo (l₁ ++ l₂) a =
      (parseNatDigitsGo l₁ a).bind (parseNatDigitsGo l₂) := by
  induction l₁ with
  | nil => intro a; simp [parseNatDigitsGo]
  | cons c cs ih =>
    intro a
    simp only [List.cons_append, parseNatDigitsGo]
    cases digitVal c with
    | none => simp
    | some d => simp [ih]

/-- Parsing the rendered digits of `n` extends the accumulator positionally. -/
theorem parseNatDigitsGo_natToChars (n : Nat) :
    ∀ a, parseNatDigitsGo (natToChars n) a =
      some (a * 10 ^ (natToChars n).length + n) := by
  induction n using Nat.strong_induction_on with
  | _ n ih =>
    intro a
    by_cases h : n < 10
    · rw [natToChars_lt n h]
      simp [parseNatDigitsGo, digitVal_decDigitChar n h]
    · rw [natToChars_ge n (by omega)]
      rw [parseNatDigitsGo_append]
      have hd : n / 10 < n := Nat.div_lt_self (by omega) (by omega)
      rw [ih (n / 10) hd a]
      simp only [Option.some_bind, parseNatDigitsGo,
        digitVal_decDigitChar (n % 10) (Nat.mod_lt n (by omega))]
      have hlen : (natToChars (n / 10) ++ [decDigitChar (n % 10)]).length =
          (natToChars (n / 10)).length + 1 := by simp
      rw [hlen]
      congr 1
      have : (a * 10 ^ (natToChars (n / 10)).length + n / 10) * 10 + n % 10 =
          a * (10 ^ (natToChars (n / 10)).length * 10) + (n / 10 * 10 + n % 10) := by
        ring
      rw [this, pow_succ]
      congr 1
      omega

/-- Decimal render/parse round-trip. -/
theorem parseNatDigits_natToChars (n : Nat) :
    parseNatDigits (natToChars n) = some n := by
  have hne : (natToChars n).isEmpty = false := by
    cases h : natToChars n with
    | nil => exact absurd h (natToChars_ne_nil n)
    | cons c cs => rfl
  rw [parseNatDigits, hne]
  simpa using parseNatDigitsGo_natToChars n 0

theorem isDigitChar_not_ws {c : Char} (h : isDigitChar c = true) :
    isWsChar c = false := by
  simp only [isDigitChar, Bool.and_eq_true, decide_eq_true_eq] at h
  simp only [isWsChar, Bool.or_eq_false_iff, decide_eq_false_iff_not]
  omega

theorem isDigitChar_ne_plus {c : Char} (h : isDigitChar c = true) : c ≠ '+' := by
  intro hc; subst hc
  exact absurd h (by decide)

theorem isDigitChar_ne_minus {c : Char} (h : isDigitChar c = true) : c ≠ '-' := by
  intro hc; subst hc
  exact absurd h (by decide)

theorem isDigitChar_ne_underscore {c : Char} (h : isDigitChar c = true) :
    c ≠ '_' := by
  intro hc; subst hc
  exact absurd h (by decide)

theorem isDigitChar_ne_cr {c : Char} (h : isDigitChar c = true) : c ≠ '\r' := by
  intro hc; subst hc
  exact absurd h (by decide)

theorem isDigitChar_not_break {c : Char} (h : isDigitChar c = true) :
    isLineBreakChar c = false := by
  simp only [isDigitChar, Bool.and_eq_true, decide_eq_true_eq] at h
  simp only [isLineBreakChar, Bool.or_eq_false_iff, decide_eq_false_iff_not]
  omega

theorem dropWhile_eq_self_of_all {p : Char → Bool} :
    ∀ {l : List Char}, (∀ c ∈ l, p c = false) → l.dropWhile p = l := by
  intro l h
  cases l with
  | nil => rfl
  | cons c cs => simp [List.dropWhile_cons, h c (by simp)]

/-- `strip` is the identity on whitespace-free text. -/
theorem pyStrip_of_all {l : List Char} (h : ∀ c ∈ l, isWsChar c = false) :
    pyStrip l = l := by
  unfold pyStrip
  rw [dropWhile_eq_self_of_all h,
    dropWhile_eq_self_of_all (by intro c hc; exact h c (List.mem_reverse.mp hc)),
    List.reverse_reverse]

/-- `strip` of one leading space before whitespace-free text. -/
theorem pyStrip_space {l : List Char} (h : ∀ c ∈ l, isWsChar c = false) :
    pyStrip (' ' :: l) = l := by
  unfold pyStrip
  rw [List.dropWhile_cons]
  have hsp : isWsChar ' ' = true := by decide
  rw [if_pos hsp, dropWhile_eq_self_of_all h,
    dropWhile_eq_self_of_all (by intro c hc; exact h c (List.mem_reverse.mp hc)),
    List.reverse_reverse]

/-- Python `int` on already-stripped digits. -/
theorem parsePyIntCore_natToChars (n : Nat) :
    parsePyIntCore (natToChars n) = some (n : Int) := by
  have hdig := natToChars_digits n
  cases hh : natToChars n with
  | nil => exact absurd hh (natToChars_ne_nil n)
  | cons c cs =>
    have hc : isDigitChar c = true := hdig c (by rw [hh]; simp)
    simp only [parsePyIntCore, if_neg (isDigitChar_ne_plus hc),
      if_neg (isDigitChar_ne_minus hc)]
    rw [← hh, parseNatDigits_natToChars n]
    rfl

/-- Python `int` applied to a rendered natural number parses it back. -/
theorem parsePyInt_natToChars (n : Nat) :
    parsePyInt (natToChars n) = some (n : Int) := by
  unfold parsePyInt
  rw [pyStrip_of_all (fun c hc => isDigitChar_not_ws (natToChars_digits n c hc))]
  exact parsePyIntCore_natToChars n

theorem rsplitOnce_of_not_mem {sep : Char} :
    ∀ {l : List Char}, sep ∉ l → rsplitOnce sep l = none := by
  intro l
  induction l with
  | nil => intro _; rfl
  | cons c cs ih =>
    intro h
    have hc : c ≠ sep := fun hc => h (by simp [hc])
    have hcs : sep ∉ cs := fun hm => h (by simp [hm])
    simp [rsplitOnce, ih hcs, hc]

/-- `rsplit` finds the last separator. -/
theorem rsplitOnce_append {sep : Char} (b : List Char) (hb : sep ∉ b) :
    ∀ a : List Char, rsplitOnce sep (a ++ sep :: b) = some (a, b) := by
  intro a
  induction a with
  | nil => simp [rsplitOnce, rsplitOnce_of_not_mem hb]
  | cons x a' ih => simp [rsplitOnce, ih]

theorem not_mem_natToChars_underscore (n : Nat) : '_' ∉ natToChars n := by
  intro h
  exact absurd rfl (isDigitChar_ne_underscore (natToChars_digits n '_' h))

/-- The emitted token text parses back to its three components. -/
theorem parseToken_renderToken (conn : List Char) (g i : Nat) :
    parseToken (renderToken conn g i) = some (conn, g, i) := by
  unfold parseToken renderToken
  have hpre : tokPrefix.isPrefixOf
      (tokPrefix ++ conn ++ '_' :: natToChars g ++ '_' :: natToChars i) = true := by
    apply List.isPrefixOf_iff_prefix.mpr
    simp only [List.append_assoc]
    exact List.prefix_append _ _
  rw [if_pos hpre]
  have hdrop : (tokPrefix ++ conn ++ '_' :: natToChars g ++ '_' :: natToChars i).drop 4
      = conn ++ '_' :: natToChars g ++ '_' :: natToChars i := by
    simp [tokPrefix]
  rw [hdrop]
  have hassoc : conn ++ '_' :: natToChars g ++ '_' :: natToChars i
      = (conn ++ '_' :: natToChars g) ++ '_' :: natToChars i := by
    simp
  rw [hassoc, rsplitOnce_append (natToChars i) (not_mem_natToChars_underscore i)]
  simp [rsplitOnce_append (natToChars g) (not_mem_natToChars_underscore g),
    parsePyInt_natToChars]

/-- A deterministic call on an already-mapped value returns the stored
token and leaves the state untouched. -/
theorem detTokenize_of_lookup (conn raw : List Char) (st : DetState) (i : Nat)
    (h : st.mapping.lookup raw = some i) :
    detTokenize conn raw st = (renderToken conn st.generation i, st) := by
  unfold detTokenize
  rw [h]

/-- One deterministic call preserves existing dictionary entries and the
generation. -/
theorem detTokenize_preserves (conn r raw : List Char) (i : Nat)
    (st : DetState) (h : st.mapping.lookup raw = some i) :
    ((detTokenize conn r st).2.mapping.lookup raw = some i) ∧
      (detTokenize conn r st).2.generation = st.generation := by
  unfold detTokenize
  cases hr : st.mapping.lookup r with
  | some j => exact ⟨h, rfl⟩
  | none =>
    refine ⟨?_, rfl⟩
    have hne : raw ≠ r := by
      intro hrr; rw [hrr, hr] at h; exact Option.noConfusion h
    simp [List.lookup, beq_eq_false_iff_ne.mpr hne, h]

theorem detTokenizeMany_preserves (conn raw : List Char) (i : Nat) :
    ∀ (raws : List (List Char)) (st : DetState),
      st.mapping.lookup raw = some i →
      ((detTokenizeMany conn raws st).mapping.lookup raw = some i) ∧
        (detTokenizeMany conn raws st).generation = st.generation := by
  intro raws
  induction raws with
  | nil => intro st h; exact ⟨h, rfl⟩
  | cons r rs ih =>
    intro st h
    have h1 := detTokenize_preserves conn r raw i st h
    have h2 := ih (detTokenize conn r st).2 h1.1
    exact ⟨h2.1, h2.2.trans h1.2⟩

/-- After tokenizing `raw`, the dictionary maps `raw` to the index used in
the returned token, and the generation is unchanged. -/
theorem detTokenize_lookup_self (conn raw : List Char) (st : DetState) :
    ∃ i, (detTokenize conn raw st).2.mapping.lookup raw = some i ∧
      (detTokenize conn raw st).1 = renderToken conn st.generation i ∧
      (detTokenize conn raw st).2.generation = st.generation := by
  unfold detTokenize
  cases hr : st.mapping.lookup raw with
  | some j => exact ⟨j, hr, rfl, rfl⟩
  | none => exact ⟨st.nextIndex, by simp [List.lookup], rfl, rfl⟩

theorem randTokenizeMany_nextIndex_mono (conn : List Char) :
    ∀ (raws : List (List Char)) (st : RandState),
      st.nextIndex ≤ (randTokenizeMany conn raws st).nextIndex ∧
        (randTokenizeMany conn raws st).generation = st.generation := by
  intro raws
  induction raws with
  | nil => intro st; exact ⟨le_refl _, rfl⟩
  | cons r rs ih =>
    intro st
    have h := ih (randTokenize conn r st).2
    refine ⟨le_trans ?_ h.1, h.2⟩
    simp [randTokenize]

/-- Every rendered token starts with `tok_`. -/
theorem tokPrefix_prefix_renderToken (conn : List Char) (g i : Nat) :
    tokPrefix <+: renderToken conn g i := by
  refine ⟨conn ++ '_' :: natToChars g ++ '_' :: natToChars i, ?_⟩
  simp [renderToken]

/-- C2 (counterexample): a raw value that is literally the token text the
engine is about to allocate is mapped to itself — tokenizing the raw value
`tok_A_0_0` on connection `A` with a fresh deterministic state returns a
token equal to the raw value, so "the token is never equal to the raw
value" fails. -/
theorem c2_counterexample_token_equals_raw :
    (detTokenize "A".data "tok_A_0_0".data ⟨[], 0, 0⟩).1 = "tok_A_0_0".data := by
  decide

/-- C2 (amended): for one connection in deterministic mode, submitting the
same raw value in two separate queries — with any other values tokenized
in between — yields the same token both times, and the token differs from
the raw value whenever the raw value does not itself begin with `tok_`. -/
theorem c2_deterministic_same_token (conn raw : List Char)
    (others : List (List Char)) (st : DetState)
    (hraw : ¬ tokPrefix <+: raw) :
    (detTokenize conn raw
        (detTokenizeMany conn others (detTokenize conn raw st).2)).1 =
      (detTokenize conn raw st).1 ∧
    (detTokenize conn raw st).1 ≠ raw := by
  obtain ⟨i, hl, ht, hg⟩ := detTokenize_lookup_self conn raw st
  have hm := detTokenizeMany_preserves conn raw i others (detTokenize conn raw st).2 hl
  constructor
  · have h2 := congrArg Prod.fst (detTokenize_of_lookup conn raw
      (detTokenizeMany conn others (detTokenize conn raw st).2) i hm.1)
    rw [h2, hm.2, hg, ht]
  · intro hcontra
    exact hraw (hcontra ▸ (ht ▸ tokPrefix_prefix_renderToken conn st.generation i))

/-- C2 (witness). -/
theorem c2_deterministic_same_token_witness :
    (detTokenize "AnotherPostgres".data "Angelo".data
        (detTokenizeMany "AnotherPostgres".data ["Bob".data]
          (detTokenize "AnotherPostgres".data "Angelo".data ⟨[], 0, 0⟩).2)).1 =
      (detTokenize "AnotherPostgres".data "Angelo".data ⟨[], 0, 0⟩).1 ∧
    (detTokenize "AnotherPostgres".data "Angelo".data ⟨[], 0, 0⟩).1 ≠
      "Angelo".data :=
  c2_deterministic_same_token "AnotherPostgres".data "Angelo".data
    ["Bob".data] ⟨[], 0, 0⟩ (by decide)

/-- C3: for one connection in randomized mode, submitting the same raw
value in two separate queries — with any other values tokenized in
between — yields two different tokens. -/
theorem c3_randomized_different_tokens (conn raw : List Char)
    (others : List (List Char)) (st : RandState) :
    (randTokenize conn raw
        (randTokenizeMany conn others (randTokenize conn raw st).2)).1 ≠
      (randTokenize conn raw st).1 := by
  intro hcontra
  have hmono := randTokenizeMany_nextIndex_mono conn others (randTokenize conn raw st).2
  set st₂ := randTokenizeMany conn others (randTokenize conn raw st).2 with hst₂
  have h1 : (randTokenize conn raw st).1 =
      renderToken conn st.generation st.nextIndex := rfl
  have h2 : (randTokenize conn raw st₂).1 =
      renderToken conn st₂.generation st₂.nextIndex := rfl
  rw [h1, h2] at hcontra
  have hp := congrArg parseToken hcontra
  rw [parseToken_renderToken, parseToken_renderToken] at hp
  have hidx : st₂.nextIndex = st.nextIndex := by
    have := (Prod.mk.injEq _ _ _ _).mp (Option.some.inj hp)
    exact ((Prod.mk.injEq _ _ _ _).mp this.2).2
  have hge : (randTokenize conn raw st).2.nextIndex ≤ st₂.nextIndex := hmono.1
  simp [randTokenize] at hge
  omega

/-- C7: every token emitted by the tokenization engine (in either mode)
parses back — per `_parse_token` — as
`tok_<connectionName>_<generation>_<index>` with the exact connection name
it was issued against and the state's generation, and natural-number
generation/index fields. -/
theorem c7_token_shape :
    (∀ (conn : List Char) (g i : Nat),
        parseToken (renderToken conn g i) = some (conn, g, i)) ∧
    (∀ (conn raw : List Char) (st : DetState), ∃ i,
        parseToken ((detTokenize conn raw st).1) =
          some (conn, st.generation, i)) ∧
    (∀ (conn raw : List Char) (st : RandState),
        parseToken ((randTokenize conn raw st).1) =
          some (conn, st.generation, st.nextIndex)) := by
  refine ⟨parseToken_renderToken, ?_, ?_⟩
  · intro conn raw st
    unfold detTokenize
    cases hr : st.mapping.lookup raw with
    | some j => exact ⟨j, parseToken_renderToken conn st.generation j⟩
    | none => exact ⟨st.nextIndex, parseToken_renderToken conn st.generation st.nextIndex⟩
  · intro conn raw st
    exact parseToken_renderToken conn st.generation st.nextIndex

theorem be32_length (n : Nat) : (be32 n).length = 4 := rfl

theorem be32decode_be32 (n : Nat) (h : n < 4294967296) :
    be32decode (be32 n) = n := by
  simp only [be32, be32decode]
  omega

theorem be16decode_be16 (n : Nat) (h : n < 65536) :
    be16decode (be16 n) = n := by
  simp only [be16, be16decode]
  omega

/-- C6: for any 32-byte secret token, the handshake request is the exact
72-byte big-endian layout `magic=0x4D435042 ("MCPB"), version=1,
reserved=0, resumeToken (32 zero bytes), secretToken`, in that order. -/
theorem c6_handshake_req_layout (secret : List Nat)
    (h : secret.length = 32) :
    buildHandshakeReq secret =
      [0x4D, 0x43, 0x50, 0x42, 0, 1, 0, 0] ++ List.replicate 32 0 ++ secret ∧
    (buildHandshakeReq secret).length = 72 := by
  constructor
  · rfl
  · simp [buildHandshakeReq, be32, be16, h]

/-- C6 (witness). -/
theorem c6_handshake_req_layout_witness :
    buildHandshakeReq (List.replicate 32 1) =
      [0x4D, 0x43, 0x50, 0x42, 0, 1, 0, 0] ++ List.replicate 32 0 ++
        List.replicate 32 1 ∧
    (buildHandshakeReq (List.replicate 32 1)).length = 72 :=
  c6_handshake_req_layout (List.replicate 32 1) (by decide)

theorem recvChunkLen_bounds (want avail hint : Nat) (hw : 1 ≤ want)
    (ha : 1 ≤ avail) :
    1 ≤ recvChunkLen want avail hint ∧ recvChunkLen want avail hint ≤ want ∧
      recvChunkLen want avail hint ≤ avail := by
  unfold recvChunkLen
  omega

/-- If the loop of `_recv_exact` returns, it returns exactly `n` bytes. -/
theorem recvExactGo_ok_length :
    ∀ (fuel n : Nat) (acc bs sched d r : List Nat),
      acc.length ≤ n → recvExactGo fuel n acc bs sched = .ok (d, r) →
      d.length = n := by
  intro fuel
  induction fuel with
  | zero =>
    intro n acc bs sched d r hle h
    by_cases hlt : acc.length < n
    · rw [recvExactGo.eq_def, if_pos hlt] at h
      cases bs with
      | nil => exact absurd h (by simp)
      | cons b rest => exact absurd h (by simp)
    · rw [recvExactGo.eq_def, if_neg hlt] at h
      obtain ⟨rfl, -⟩ := Prod.mk.injEq .. ▸ Except.ok.inj h
      omega
  | succ f ih =>
    intro n acc bs sched d r hle h
    by_cases hlt : acc.length < n
    · rw [recvExactGo.eq_def, if_pos hlt] at h
      cases bs with
      | nil => exact absurd h (by simp)
      | cons b rest =>
        simp only [] at h
        refine ih n _ _ _ d r ?_ h
        have hbounds := recvChunkLen_bounds (n - acc.length) (b :: rest).length
          (sched.headD (n - acc.length)) (by omega) (by simp)
        simp only [List.length_append, List.length_take]
        omega
    · rw [recvExactGo.eq_def, if_neg hlt] at h
      obtain ⟨rfl, -⟩ := Prod.mk.injEq .. ▸ Except.ok.inj h
      omega

/-- If the stream closes before `n` bytes arrive, `_recv_exact` errors. -/
theorem recvExactGo_short_error :
    ∀ (fuel n : Nat) (acc bs sched : List Nat),
      acc.length + bs.length < n →
      ∃ e, recvExactGo fuel n acc bs sched = .error e := by
  intro fuel
  induction fuel with
  | zero =>
    intro n acc bs sched hshort
    have hlt : acc.length < n := by omega
    rw [recvExactGo.eq_def, if_pos hlt]
    cases bs with
    | nil => exact ⟨_, rfl⟩
    | cons b rest => exact ⟨_, rfl⟩
  | succ f ih =>
    intro n acc bs sched hshort
    have hlt : acc.length < n := by omega
    rw [recvExactGo.eq_def, if_pos hlt]
    cases bs with
    | nil => exact ⟨_, rfl⟩
    | cons b rest =>
      simp only []
      apply ih
      have hbounds := recvChunkLen_bounds (n - acc.length) (b :: rest).length
        (sched.headD (n - acc.length)) (by omega) (by simp)
      simp only [List.length_append, List.length_take, List.length_drop]
      omega

/-- C4: `_recv_exact` (and with it the frame reader built on it) either
returns exactly the declared byte count `n` or raises: a successful return
always holds `n` bytes — never a truncated success — and a stream that
closes before `n` bytes are obtained always produces an error. -/
theorem c4_recv_exact_all_or_error :
    (∀ (n : Nat) (bs sched d : List Nat),
        recvExact n bs sched = .ok d → d.length = n) ∧
    (∀ (n : Nat) (bs sched : List Nat), bs.length < n →
        ∃ e, recvExact n bs sched = .error e) := by
  constructor
  · intro n bs sched d h
    unfold recvExact recvExactState at h
    cases hgo : recvExactGo n n [] bs sched with
    | error e => rw [hgo] at h; exact absurd h (by simp [Except.map])
    | ok pr =>
      rw [hgo] at h
      simp only [Except.map] at h
      obtain rfl := Except.ok.inj h
      exact recvExactGo_ok_length n n [] bs sched pr.1 pr.2 (by simp) (by rw [hgo])
  · intro n bs sched hshort
    obtain ⟨e, he⟩ := recvExactGo_short_error n n [] bs sched
      (by simp only [List.length_nil]; omega)
    exact ⟨e, by unfold recvExact recvExactState; rw [he]; rfl⟩

/-- C4 (witness). -/
theorem c4_recv_exact_all_or_error_witness :
    (([9, 9, 9] : List Nat).length = 3) ∧
    (∃ e, recvExact 3 [1, 2] [] = .error e) :=
  ⟨c4_recv_exact_all_or_error.1 3 [9, 9, 9, 4] [] [9, 9, 9] rfl,
   c4_recv_exact_all_or_error.2 3 [1, 2] [] (by decide)⟩

theorem crlf2_isPrefixOf_cons {c : Char} {x : List Char}
    (h : crlf2.isPrefixOf (c :: x) = true) : c = '\r' := by
  obtain ⟨t, ht⟩ := List.isPrefixOf_iff_prefix.mp h
  simp only [crlf2, List.cons_append] at ht
  exact (List.cons.inj ht).1.symm

/-- `split(b"\r\n\r\n", 1)` on text whose head part is CR-free cuts at
the terminator. -/
theorem splitOnFirst_crlf2 (b : List Char) :
    ∀ a : List Char, '\r' ∉ a →
      splitOnFirst crlf2 (a ++ crlf2 ++ b) = some (a, b) := by
  intro a
  induction a with
  | nil =>
    intro _
    show splitOnFirst crlf2 (crlf2 ++ b) = some ([], b)
    have hpre : crlf2.isPrefixOf ('\r' :: '\n' :: '\r' :: '\n' :: b) = true :=
      List.isPrefixOf_iff_prefix.mpr ⟨b, by simp [crlf2]⟩
    simp [splitOnFirst, crlf2, hpre]
  | cons c a' ih =>
    intro hmem
    have hc : ¬ crlf2.isPrefixOf (c :: (a' ++ crlf2 ++ b)) = true := by
      intro h
      exact hmem (by simp [crlf2_isPrefixOf_cons h])
    have hrec := ih (fun h => hmem (by simp [h]))
    simp only [List.cons_append, splitOnFirst, List.append_eq]
    rw [if_neg hc, hrec]

theorem not_cr_clHeaderLine (n : Nat) : '\r' ∉ clHeaderLine n := by
  intro h
  rcases List.mem_append.mp h with h1 | h1
  · exact absurd h1 (by decide)
  · exact absurd rfl (isDigitChar_ne_cr (natToChars_digits n '\r' h1))

/-- C5 (counterexample): `_send_len_prefixed` accepts a write whose
declared length (2) differs from its payload length (1) — the declared
length may exceed the bytes actually sent — so "a write with a declared
length different from the payload length is rejected" fails. -/
theorem c5_counterexample_declared_exceeds_payload :
    sendLenPrefixed 2 [7] = .ok [0, 0, 0, 2, 7] ∧
      (2 : Nat) ≠ ([7] : List Nat).length := by
  constructor
  · rfl
  · decide

/-- C5 (amended): `write_frame` always declares exactly its payload's
length — splitting the written bytes at the header terminator recovers the
header line and the untouched payload, and the header's parsed
Content-Length value equals the payload length; `_send_len_prefixed`
writes a 4-byte big-endian prefix and rejects a declared length that the
payload exceeds (or that does not fit `uint32`), but permits a declared
length larger than the payload — used deliberately to emit truncated
frames. -/
theorem c5_frame_write_length_discipline :
    (∀ p : List Char,
        splitOnFirst crlf2 (writeFrameBytes p) = some (clHeaderLine p.length, p) ∧
        parsePyInt ((clHeaderLine p.length).drop 15) = some (p.length : Int)) ∧
    (∀ (d : Nat) (p out : List Nat), sendLenPrefixed d p = .ok out →
        p.length ≤ d ∧ d ≤ 4294967295 ∧ out = be32 d ++ p) ∧
    (∀ (d : Nat) (p : List Nat), d < p.length →
        ∃ e, sendLenPrefixed d p = .error e) := by
  refine ⟨?_, ?_, ?_⟩
  · intro p
    constructor
    · exact splitOnFirst_crlf2 p (clHeaderLine p.length)
        (not_cr_clHeaderLine p.length)
    · have hdrop : (clHeaderLine p.length).drop 15 = ' ' :: natToChars p.length := by
        simp [clHeaderLine]
      rw [hdrop]
      unfold parsePyInt
      rw [pyStrip_space
        (fun c hc => isDigitChar_not_ws (natToChars_digits p.length c hc))]
      exact parsePyIntCore_natToChars p.length
  · intro d p out h
    unfold sendLenPrefixed at h
    by_cases h1 : 4294967295 < d
    · rw [if_pos h1] at h; exact absurd h (by simp)
    · rw [if_neg h1] at h
      by_cases h2 : d < p.length
      · rw [if_pos h2] at h; exact absurd h (by simp)
      · rw [if_neg h2] at h
        exact ⟨by omega, by omega, (Except.ok.inj h).symm⟩
  · intro d p h2
    unfold sendLenPrefixed
    by_cases h1 : 4294967295 < d
    · rw [if_pos h1]; exact ⟨_, rfl⟩
    · rw [if_neg h1, if_pos h2]; exact ⟨_, rfl⟩

/-- C5 (witness). -/
theorem c5_frame_write_length_discipline_witness :
    (([1, 2] : List Nat).length ≤ 5 ∧ 5 ≤ 4294967295 ∧
      ([0, 0, 0, 5, 1, 2] : List Nat) = be32 5 ++ [1, 2]) ∧
    (∃ e, sendLenPrefixed 0 [1] = .error e) :=
  ⟨c5_frame_write_length_discipline.2.1 5 [1, 2] [0, 0, 0, 5, 1, 2] rfl,
   c5_frame_write_length_discipline.2.2 0 [1] (by decide)⟩

theorem be16_length (n : Nat) : (be16 n).length = 2 := rfl

theorem buildHandshakeReq_length (secret : List Nat) (m : Nat)
    (hs : secret.length = 32) : (buildHandshakeReq secret m).length = 72 := by
  simp [buildHandshakeReq, be32, be16, hs]

theorem buildHandshakeReq_take4 (secret : List Nat) (m : Nat) :
    (buildHandshakeReq secret m).take 4 = be32 m := by
  unfold buildHandshakeReq
  simp only [List.append_assoc]
  exact List.take_left' (be32_length m)

theorem buildHandshakeReq_version (secret : List Nat) (m : Nat) :
    ((buildHandshakeReq secret m).drop 4).take 2 = be16 handshakeVersion := by
  unfold buildHandshakeReq
  simp only [List.append_assoc]
  rw [List.drop_left' (be32_length m)]
  exact List.take_left' (be16_length handshakeVersion)

theorem buildHandshakeReq_secretField (secret : List Nat) (m : Nat)
    (hs : secret.length = 32) :
    ((buildHandshakeReq secret m).drop 40).take 32 = secret := by
  unfold buildHandshakeReq
  simp only [List.append_assoc]
  have h4 : (40 : Nat) = (be32 m).length + 36 := by simp [be32]
  rw [h4, List.drop_append]
  have h2 : (36 : Nat) = (be16 handshakeVersion).length + 34 := by simp [be16]
  rw [h2, List.drop_append]
  have h2' : (34 : Nat) = (be16 0).length + 32 := by simp [be16]
  rw [h2', List.drop_append]
  rw [List.drop_left' (by simp : (List.replicate 32 0 : List Nat).length = 32)]
  rw [← hs]
  exact List.take_length secret

/-- The spec-modelled broker accepts a well-formed handshake carrying the
right magic, version, and secret: it replies with the 48-byte OK frame,
authenticates, and rotates the stored resume token. -/
theorem handleConn_good (secret entropy : List Nat) (store : Option (List Nat))
    (hs : secret.length = 32) :
    handleConn secret entropy store
        (be32 handshakeReqWireSize ++ buildHandshakeReq secret) =
      (handshakeOkResp entropy, .authenticated, some entropy) := by
  unfold handleConn
  have hlen4 : ¬ (be32 handshakeReqWireSize ++ buildHandshakeReq secret).length < 4 := by
    simp [be32]
  rw [if_neg hlen4]
  simp only [List.take_left' (be32_length handshakeReqWireSize),
    List.drop_left' (be32_length handshakeReqWireSize),
    be32decode_be32 handshakeReqWireSize (by decide)]
  have hreqlen : (buildHandshakeReq secret).length = 72 :=
    buildHandshakeReq_length secret handshakeMagic hs
  rw [if_neg (by rw [hreqlen]; decide)]
  have htake : (buildHandshakeReq secret).take handshakeReqWireSize =
      buildHandshakeReq secret :=
    List.take_of_length_le (by rw [hreqlen]; decide)
  rw [if_neg (by decide), htake, buildHandshakeReq_take4,
    buildHandshakeReq_version, buildHandshakeReq_secretField secret _ hs,
    be32decode_be32 handshakeMagic (by decide),
    be16decode_be16 handshakeVersion (by decide)]
  rw [if_neg (by simp)]

/-- The spec-modelled broker closes a connection that sends fewer than 4
bytes (including zero bytes) with no reply and no store change. -/
theorem handleConn_short (secret entropy : List Nat) (store : Option (List Nat))
    (input : List Nat) (h : input.length < 4) :
    handleConn secret entropy store input = ([], .closed, store) := by
  unfold handleConn
  rw [if_pos h]

/-- The spec-modelled broker closes a connection whose declared frame
length exceeds the bytes supplied, with no reply and no store change. -/
theorem handleConn_truncated (secret entropy : List Nat)
    (store : Option (List Nat)) (declared : Nat) (rest : List Nat)
    (hd : declared < 4294967296) (hlen : rest.length < declared) :
    handleConn secret entropy store (be32 declared ++ rest) =
      ([], .closed, store) := by
  unfold handleConn
  have hlen4 : ¬ (be32 declared ++ rest).length < 4 := by simp [be32]
  rw [if_neg hlen4]
  simp only [List.take_left' (be32_length declared),
    List.drop_left' (be32_length declared), be32decode_be32 declared hd]
  rw [if_pos hlen]

/-- The spec-modelled broker closes a connection whose well-formed
handshake frame carries the wrong magic, silently. -/
theorem handleConn_bad_magic (secret entropy : List Nat)
    (store : Option (List Nat)) (badMagic : Nat) (hs : secret.length = 32)
    (hm : badMagic < 4294967296) (hne : badMagic ≠ handshakeMagic) :
    handleConn secret entropy store
        (be32 handshakeReqWireSize ++ buildHandshakeReq secret badMagic) =
      ([], .closed, store) := by
  unfold handleConn
  have hlen4 : ¬ (be32 handshakeReqWireSize ++ buildHandshakeReq secret badMagic).length < 4 := by
    simp [be32]
  rw [if_neg hlen4]
  simp only [List.take_left' (be32_length handshakeReqWireSize),
    List.drop_left' (be32_length handshakeReqWireSize),
    be32decode_be32 handshakeReqWireSize (by decide)]
  have hreqlen : (buildHandshakeReq secret badMagic).length = 72 :=
    buildHandshakeReq_length secret badMagic hs
  rw [if_neg (by rw [hreqlen]; decide)]
  have htake : (buildHandshakeReq secret badMagic).take handshakeReqWireSize =
      buildHandshakeReq secret badMagic :=
    List.take_of_length_le (by rw [hreqlen]; decide)
  rw [if_neg (by decide), htake, buildHandshakeReq_take4,
    be32decode_be32 badMagic hm]
  rw [if_pos (Or.inl hne)]

/-- C1: every malformed handshake attempt — zero bytes sent, a declared
frame length exceeding the supplied bytes (covering truncated payloads),
or a well-formed frame with the wrong magic — leaves the broker having
written zero bytes back, in the `Closed` state, with the resume store
untouched; and a fresh well-formed handshake against the same broker
state still succeeds with the 48-byte OK reply. -/
theorem c1_malformed_handshake_silent_close (secret entropy : List Nat)
    (store : Option (List Nat)) (hs : secret.length = 32)
    (he : entropy.length = 32) :
    (handleConn secret entropy store [] = ([], .closed, store)) ∧
    (∀ (declared : Nat) (rest : List Nat), declared < 4294967296 →
        rest.length < declared →
        handleConn secret entropy store (be32 declared ++ rest) =
          ([], .closed, store)) ∧
    (∀ badMagic : Nat, badMagic < 4294967296 → badMagic ≠ handshakeMagic →
        handleConn secret entropy store
          (be32 handshakeReqWireSize ++ buildHandshakeReq secret badMagic) =
          ([], .closed, store)) ∧
    (handleConn secret entropy store
        (be32 handshakeReqWireSize ++ buildHandshakeReq secret) =
      (handshakeOkResp entropy, .authenticated, some entropy)) ∧
    (handshakeOkResp entropy).length = 48 := by
  refine ⟨handleConn_short secret entropy store [] (by simp), ?_, ?_, ?_, ?_⟩
  · intro declared rest hd hlen
    exact handleConn_truncated secret entropy store declared rest hd hlen
  · intro badMagic hm hne
    exact handleConn_bad_magic secret entropy store badMagic hs hm hne
  · exact handleConn_good secret entropy store hs
  · simp [handshakeOkResp, be32, be16, he]

/-- C1 (witness). -/
theorem c1_malformed_handshake_silent_close_witness :
    (handleConn (List.replicate 32 7) (List.replicate 32 9) none [] =
      ([], .closed, none)) ∧
    (handleConn (List.replicate 32 7) (List.replicate 32 9) none
        (be32 72 ++ List.replicate 70 0) = ([], .closed, none)) ∧
    (handleConn (List.replicate 32 7) (List.replicate 32 9) none
        (be32 handshakeReqWireSize ++
          buildHandshakeReq (List.replicate 32 7) 0) = ([], .closed, none)) ∧
    (handleConn (List.replicate 32 7) (List.replicate 32 9) none
        (be32 handshakeReqWireSize ++ buildHandshakeReq (List.replicate 32 7)) =
      (handshakeOkResp (List.replicate 32 9), .authenticated,
        some (List.replicate 32 9))) := by
  have h := c1_malformed_handshake_silent_close (List.replicate 32 7)
    (List.replicate 32 9) none (by decide) (by decide)
  exact ⟨h.1, h.2.1 72 (List.replicate 70 0) (by decide) (by decide),
    h.2.2.1 0 (by decide) (by decide), h.2.2.2.1⟩

/-- C9: two full handshake cycles for the same identity rotate the stored
resume token each time: after the first cycle the store holds the first
fresh random draw, after the second it holds the second draw, and as long
as the two 32-byte draws differ the stored token after the second cycle
differs from the one after the first (rotation replaces, never reuses). -/
theorem c9_resume_token_rotates (secret e₁ e₂ : List Nat)
    (store₀ : Option (List Nat)) (hs : secret.length = 32) (hne : e₁ ≠ e₂) :
    handshakeCycleStore secret e₁ store₀ = some e₁ ∧
    handshakeCycleStore secret e₂ (handshakeCycleStore secret e₁ store₀) =
      some e₂ ∧
    handshakeCycleStore secret e₂ (handshakeCycleStore secret e₁ store₀) ≠
      handshakeCycleStore secret e₁ store₀ := by
  have h₁ : handshakeCycleStore secret e₁ store₀ = some e₁ := by
    unfold handshakeCycleStore
    rw [handleConn_good secret e₁ store₀ hs]
  have h₂ : handshakeCycleStore secret e₂ (handshakeCycleStore secret e₁ store₀) =
      some e₂ := by
    unfold handshakeCycleStore
    rw [handleConn_good secret e₂ _ hs]
  refine ⟨h₁, h₂, ?_⟩
  rw [h₂, h₁]
  intro hcontra
  exact hne (Option.some.inj hcontra).symm

/-- C9 (witness). -/
theorem c9_resume_token_rotates_witness :
    handshakeCycleStore (List.replicate 32 7) (List.replicate 32 1) none =
      some (List.replicate 32 1) ∧
    handshakeCycleStore (List.replicate 32 7) (List.replicate 32 2)
        (handshakeCycleStore (List.replicate 32 7) (List.replicate 32 1) none) =
      some (List.replicate 32 2) ∧
    handshakeCycleStore (List.replicate 32 7) (List.replicate 32 2)
        (handshakeCycleStore (List.replicate 32 7) (List.replicate 32 1) none) ≠
      handshakeCycleStore (List.replicate 32 7) (List.replicate 32 1) none :=
  c9_resume_token_rotates (List.replicate 32 7) (List.replicate 32 1)
    (List.replicate 32 2) none (by decide) (by decide)

theorem tokenizeCell_fst_length (p : Profile)
    (row : List (List Char × List Char)) (acc : List (List Char) × DetState)
    (c : List Char) :
    (tokenizeCell p row acc c).1.length = acc.1.length + 1 := by
  by_cases h : c ∈ p.sensitiveCols <;> simp [tokenizeCell, h]

theorem tokenizeRow_foldl_length (p : Profile)
    (row : List (List Char × List Char)) :
    ∀ (cols : List (List Char)) (acc : List (List Char) × DetState),
      (cols.foldl (tokenizeCell p row) acc).1.length =
        acc.1.length + cols.length := by
  intro cols
  induction cols with
  | nil => intro acc; simp
  | cons c cs ih =>
    intro acc
    simp only [List.foldl_cons, ih, tokenizeCell_fst_length, List.length_cons]
    omega

/-- Each result row has one output cell per selected column. -/
theorem tokenizeRow_length (p : Profile) (row : List (List Char × List Char))
    (cols : List (List Char)) (st : DetState) :
    (tokenizeRow p row cols st).1.length = cols.length := by
  unfold tokenizeRow
  rw [tokenizeRow_foldl_length]
  simp

/-- C8 (counterexample): directly selecting the sensitive column
`real_name` on `AnotherPostgres` is *not* rejected — the query succeeds
and returns the tokenized value (`test_run_sql_sensitive` asserts exactly
this), contradicting "a query directly selecting a column marked
sensitive is rejected". -/
theorem c8_counterexample_direct_select_sensitive_succeeds :
    (execute
        ⟨"AnotherPostgres".data, ["real_name".data], ["unsafe_get_weight".data]⟩
        ⟨["real_name".data], [], []⟩
        [("real_name".data, "Angelo".data)]
        ⟨[], 0, 0⟩).toOption.map Prod.fst =
      some ["tok_AnotherPostgres_0_0".data] := by
  decide

/-- C8 (amended): a query whose *filter predicate* references a column
marked sensitive is rejected with a structured error naming that column;
a query invoking a function marked unsafe is rejected with an error
naming that function; every such error is computed before any row data is
consulted, so its text never depends on (and never includes) the stored
values; and a query passing both checks — in particular one invoking an
approved accessor function, or directly selecting the sensitive column —
succeeds with one output cell per selected column. -/
theorem c8_gateway_policy_errors (p : Profile) (q : SqlQuery)
    (row : List (List Char × List Char)) (st : DetState) :
    (∀ f, q.funcs.find? (fun x => p.unsafeFuncs.contains x) = some f →
        execute p q row st = .error (.unsafeFunction f) ∧
        f <:+: renderGwError (.unsafeFunction f)) ∧
    (∀ c, q.funcs.find? (fun x => p.unsafeFuncs.contains x) = none →
        q.whereCols.find? (fun x => p.sensitiveCols.contains x) = some c →
        execute p q row st = .error (.sensitiveColumn c) ∧
        c <:+: renderGwError (.sensitiveColumn c)) ∧
    (∀ (row' : List (List Char × List Char)) (st' : DetState) (e : GwError),
        execute p q row st = .error e → execute p q row' st' = .error e) ∧
    (q.funcs.find? (fun x => p.unsafeFuncs.contains x) = none →
        q.whereCols.find? (fun x => p.sensitiveCols.contains x) = none →
        ∃ out st₂, execute p q row st = .ok (out, st₂) ∧
          out.length = q.selectCols.length) := by
  refine ⟨?_, ?_, ?_, ?_⟩
  · intro f hf
    refine ⟨?_, "query calls unsafe function ".data, [], by simp [renderGwError]⟩
    unfold execute
    rw [hf]
  · intro c hf hc
    refine ⟨?_, "query references sensitive column ".data, [],
      by simp [renderGwError]⟩
    unfold execute
    rw [hf, hc]
  · intro row' st' e he
    unfold execute at he ⊢
    cases hf : q.funcs.find? (fun x => p.unsafeFuncs.contains x) with
    | some f => rw [hf] at he; exact (Except.error.inj he) ▸ rfl
    | none =>
      rw [hf] at he
      cases hc : q.whereCols.find? (fun x => p.sensitiveCols.contains x) with
      | some c => rw [hc] at he; exact (Except.error.inj he) ▸ rfl
      | none => rw [hc] at he; exact absurd he (by simp)
  · intro hf hc
    refine ⟨(tokenizeRow p row q.selectCols st).1,
      (tokenizeRow p row q.selectCols st).2, ?_, tokenizeRow_length p row _ st⟩
    unfold execute
    rw [hf, hc]

/-- C8 (witness). -/
theorem c8_gateway_policy_errors_witness :
    (execute
        ⟨"AnotherPostgres".data, ["real_name".data], ["unsafe_get_weight".data]⟩
        ⟨["nickname".data], ["real_name".data], []⟩ [] ⟨[], 0, 0⟩ =
      .error (.sensitiveColumn "real_name".data) ∧
      "real_name".data <:+: renderGwError (.sensitiveColumn "real_name".data)) ∧
    (execute
        ⟨"AnotherPostgres".data, ["real_name".data], ["unsafe_get_weight".data]⟩
        ⟨[], [], ["unsafe_get_weight".data]⟩ [] ⟨[], 0, 0⟩ =
      .error (.unsafeFunction "unsafe_get_weight".data) ∧
      "unsafe_get_weight".data <:+:
        renderGwError (.unsafeFunction "unsafe_get_weight".data)) ∧
    (∃ out st₂, execute
        ⟨"AnotherPostgres".data, ["real_name".data], ["unsafe_get_weight".data]⟩
        ⟨["w".data], [], ["get_weight".data]⟩ [] ⟨[], 0, 0⟩ =
      .ok (out, st₂) ∧ out.length = 1) :=
  ⟨(c8_gateway_policy_errors
      ⟨"AnotherPostgres".data, ["real_name".data], ["unsafe_get_weight".data]⟩
      ⟨["nickname".data], ["real_name".data], []⟩ [] ⟨[], 0, 0⟩).2.1
    "real_name".data (by decide) (by decide),
   (c8_gateway_policy_errors
      ⟨"AnotherPostgres".data, ["real_name".data], ["unsafe_get_weight".data]⟩
      ⟨[], [], ["unsafe_get_weight".data]⟩ [] ⟨[], 0, 0⟩).1
    "unsafe_get_weight".data (by decide),
   (c8_gateway_policy_errors
      ⟨"AnotherPostgres".data, ["real_name".data], ["unsafe_get_weight".data]⟩
      ⟨["w".data], [], ["get_weight".data]⟩ [] ⟨[], 0, 0⟩).2.2.2
    (by decide) (by decide)⟩

theorem containsSeq_iff (pat : List Char) :
    ∀ l : List Char, containsSeq pat l = true ↔ pat <:+: l := by
  intro l
  induction l with
  | nil =>
    simp only [containsSeq, List.isEmpty_iff]
    constructor
    · intro h; simp [h]
    · intro h; simpa using h
  | cons c rest ih =>
    simp only [containsSeq, Bool.or_eq_true, List.isPrefixOf_iff_prefix, ih,
      List.infix_cons_iff]

/-- No run of `"\r\n\r\n"` fits inside CR-free text followed by fewer than
four further characters. -/
theorem not_infix_crlf2 (a t : List Char) (ha : '\r' ∉ a)
    (ht : t.length < 4) : ¬ crlf2 <:+: (a ++ t) := by
  rintro ⟨s, u, hsu⟩
  by_cases hlen : s.length < a.length
  · have h1 : (s ++ (crlf2 ++ u))[s.length]? = some '\r' := by
      rw [List.getElem?_append_right (le_refl s.length)]
      simp [crlf2]
    rw [List.append_assoc] at hsu
    rw [hsu] at h1
    rw [List.getElem?_append, if_pos hlen] at h1
    exact ha (List.getElem?_mem h1)
  · have := congrArg List.length hsu
    simp only [List.length_append, crlf2] at this
    simp only [List.length_cons, List.length_nil] at this
    omega

theorem containsSeq_crlf2_false (a t : List Char) (ha : '\r' ∉ a)
    (ht : t.length < 4) : containsSeq crlf2 (a ++ t) = false := by
  rw [← Bool.not_eq_true, containsSeq_iff]
  exact not_infix_crlf2 a t ha ht

/-- Once the buffer holds the terminator, the scan stops. -/
theorem scanHeaderGo_found (buf s : List Char)
    (h : containsSeq crlf2 buf = true) : scanHeaderGo buf s = some (buf, s) := by
  cases s with
  | nil => rw [scanHeaderGo.eq_1, if_pos h]
  | cons c rest => rw [scanHeaderGo.eq_2, if_pos h]

/-- The scan consumes the four terminator bytes and stops exactly there. -/
theorem scanHeaderGo_end (b tail : List Char) (hb : '\r' ∉ b)
    (hlen : b.length + 4 ≤ 256) :
    scanHeaderGo b (crlf2 ++ tail) = some (b ++ crlf2, tail) := by
  have h0 : containsSeq crlf2 b = false := by
    have := containsSeq_crlf2_false b [] hb (by decide)
    simpa using this
  have h1 : containsSeq crlf2 (b ++ ['\r']) = false :=
    containsSeq_crlf2_false b ['\r'] hb (by decide)
  have h2 : containsSeq crlf2 (b ++ ['\r', '\n']) = false :=
    containsSeq_crlf2_false b ['\r', '\n'] hb (by decide)
  have h3 : containsSeq crlf2 (b ++ ['\r', '\n', '\r']) = false :=
    containsSeq_crlf2_false b ['\r', '\n', '\r'] hb (by decide)
  have h4 : containsSeq crlf2 (b ++ crlf2) = true := by
    rw [containsSeq_iff]
    exact ⟨b, [], by simp⟩
  show scanHeaderGo b ('\r' :: '\n' :: '\r' :: '\n' :: tail) = some (b ++ crlf2, tail)
  rw [scanHeaderGo.eq_2, h0]
  rw [if_neg (by simp), if_neg (by omega)]
  rw [scanHeaderGo.eq_2, h1]
  rw [if_neg (by simp), if_neg (by simp; omega)]
  rw [scanHeaderGo.eq_2]
  rw [show b ++ ['\r'] ++ ['\n'] = b ++ ['\r', '\n'] by simp, h2]
  rw [if_neg (by simp), if_neg (by simp; omega)]
  rw [scanHeaderGo.eq_2]
  rw [show b ++ ['\r', '\n'] ++ ['\r'] = b ++ ['\r', '\n', '\r'] by simp, h3]
  rw [if_neg (by simp), if_neg (by simp; omega)]
  rw [show b ++ ['\r', '\n', '\r'] ++ ['\n'] = b ++ crlf2 by simp [crlf2]]
  exact scanHeaderGo_found (b ++ crlf2) tail h4

/-- Scanning CR-free header text followed by the terminator returns the
buffered header plus terminator and the untouched remainder. -/
theorem scanHeaderGo_header (tail : List Char) :
    ∀ (s b : List Char), '\r' ∉ b ++ s → (b ++ s).length + 4 ≤ 256 →
      scanHeaderGo b (s ++ (crlf2 ++ tail)) = some ((b ++ s) ++ crlf2, tail) := by
  intro s
  induction s with
  | nil =>
    intro b hmem hlen
    simp only [List.append_nil] at hmem hlen ⊢
    exact scanHeaderGo_end b tail hmem hlen
  | cons c s' ih =>
    intro b hmem hlen
    have hb : '\r' ∉ b := fun h => hmem (by simp [h])
    have h0 : containsSeq crlf2 b = false := by
      have := containsSeq_crlf2_false b [] hb (by decide)
      simpa using this
    show scanHeaderGo b (c :: (s' ++ (crlf2 ++ tail))) = _
    rw [scanHeaderGo.eq_2, h0, if_neg (by simp)]
    rw [if_neg (by
      have := congrArg List.length (rfl : b ++ c :: s' = b ++ c :: s')
      simp only [List.length_append, List.length_cons] at hlen ⊢
      omega)]
    have hmem' : '\r' ∉ (b ++ [c]) ++ s' := by
      intro h
      apply hmem
      simpa [List.append_assoc] using h
    have hlen' : ((b ++ [c]) ++ s').length + 4 ≤ 256 := by
      simp only [List.length_append, List.length_cons, List.length_nil] at hlen ⊢
      omega
    have := ih (b ++ [c]) hmem' hlen'
    rw [this]
    congr 2
    simp

theorem splitLinesGo_no_breaks :
    ∀ (l cur : List Char), (∀ c ∈ l, isLineBreakChar c = false) →
      splitLinesGo cur l = if (cur ++ l).isEmpty then [] else [cur ++ l] := by
  intro l
  induction l with
  | nil =>
    intro cur h
    rw [splitLinesGo.eq_1]
    simp
  | cons c rest ih =>
    intro cur h
    have hc : isLineBreakChar c = false := h c (by simp)
    have hcr : c ≠ '\r' := by
      intro hh; rw [hh] at hc; exact absurd hc (by decide)
    rw [splitLinesGo.eq_3 cur c rest (by intro r h1 _; exact hcr h1)]
    rw [if_neg (by simp [hc, hcr])]
    rw [ih (cur ++ [c]) (fun x hx => h x (by simp [hx]))]
    simp

/-- `splitlines` on break-free non-empty text is that single line. -/
theorem splitLines_single (l : List Char)
    (h : ∀ c ∈ l, isLineBreakChar c = false) (hne : l ≠ []) :
    splitLines l = [l] := by
  unfold splitLines
  rw [splitLinesGo_no_breaks l [] h]
  simp [hne]

/-- The payload loop of `read_frame` collects exactly the missing bytes,
regardless of chunking, and leaves the rest of the stream unread. -/
theorem readPayloadGo_exact :
    ∀ (fuel : Nat) (rest : List Char) (n : Nat) (acc k : List Char)
      (sched : List Nat),
      acc.length + rest.length = n → rest.length ≤ fuel →
      readPayloadGo fuel n acc (rest ++ k) sched = some (acc ++ rest, k) := by
  intro fuel
  induction fuel with
  | zero =>
    intro rest n acc k sched hsum hle
    have hrest : rest = [] := List.length_eq_zero.mp (by omega)
    subst hrest
    rw [readPayloadGo.eq_def, if_neg (by simp at hsum ⊢; omega)]
    simp
  | succ f ih =>
    intro rest n acc k sched hsum hle
    cases rest with
    | nil =>
      rw [readPayloadGo.eq_def, if_neg (by simp at hsum ⊢; omega)]
      simp
    | cons r rs =>
      have hlt : acc.length < n := by
        simp only [List.length_cons] at hsum; omega
      rw [readPayloadGo.eq_def, if_pos hlt]
      simp only [List.cons_append]
      have hlen : (r :: rs).length = n - acc.length := by
        simp only [List.length_cons] at hsum ⊢; omega
      set k' := recvChunkLen (n - acc.length) (r :: (rs ++ k)).length
        (List.headD sched (n - acc.length)) with hk'
      have hbounds := recvChunkLen_bounds (n - acc.length)
        (r :: (rs ++ k)).length (List.headD sched (n - acc.length))
        (by omega) (by simp)
      have hk'le : k' ≤ (r :: rs).length := by
        rw [hlen]; exact hbounds.2.1
      have htake : (r :: (rs ++ k)).take k' = (r :: rs).take k' := by
        have := @List.take_append_of_le_length _ (r :: rs) k k' hk'le
        simpa using this
      have hdrop : (r :: (rs ++ k)).drop k' = (r :: rs).drop k' ++ k := by
        have := @List.drop_append_of_le_length _ (r :: rs) k k' hk'le
        simpa using this
      rw [htake, hdrop]
      have hrec := ih ((r :: rs).drop k') n (acc ++ (r :: rs).take k') k
        sched.tail
        (by
          simp only [List.length_append, List.length_take, List.length_drop]
          simp only [List.length_cons] at hsum ⊢
          omega)
        (by
          simp only [List.length_drop]
          simp only [List.length_cons] at hle ⊢
          omega)
      rw [hrec, List.append_assoc, List.take_append_drop]

theorem clHeaderLine_no_breaks (n : Nat) :
    ∀ c ∈ clHeaderLine n, isLineBreakChar c = false := by
  have hlit : ∀ c ∈ "Content-Length: ".data, isLineBreakChar c = false := by
    decide
  intro c hc
  rcases List.mem_append.mp hc with h1 | h1
  · exact hlit c h1
  · exact isDigitChar_not_break (natToChars_digits n c h1)

theorem clPrefix_prefix_clHeaderLine (n : Nat) :
    clPrefix <+: clHeaderLine n :=
  ⟨' ' :: natToChars n, rfl⟩

theorem clHeaderLine_drop15 (n : Nat) :
    (clHeaderLine n).drop 15 = ' ' :: natToChars n := by
  simp [clHeaderLine]

theorem parsePyInt_space_digits (n : Nat) :
    parsePyInt (' ' :: natToChars n) = some (n : Int) := by
  unfold parsePyInt
  rw [pyStrip_space (fun c hc => isDigitChar_not_ws (natToChars_digits n c hc))]
  exact parsePyIntCore_natToChars n

/-- C10: the Content-Length framing round-trips — for every payload (whose
length renders in at most 236 digits, i.e. below the reader's 256-byte
header cap), any trailing stream content, and any read-chunking schedule,
`read_frame` applied to the bytes `write_frame` produced returns exactly
the original payload and leaves the trailing content unread. -/
theorem c10_content_length_round_trip (p k : List Char) (sched : List Nat)
    (hsize : (natToChars p.length).length ≤ 236) :
    readFrame (writeFrameBytes p ++ k) sched = some (p, k) := by
  have hnocr : '\r' ∉ clHeaderLine p.length := not_cr_clHeaderLine p.length
  have hhlen : (clHeaderLine p.length).length + 4 ≤ 256 := by
    have h16 : ("Content-Length: ".data).length = 16 := by decide
    simp only [clHeaderLine, List.length_append, h16]
    omega
  have hstream : writeFrameBytes p ++ k =
      clHeaderLine p.length ++ (crlf2 ++ (p ++ k)) := by
    simp [writeFrameBytes, List.append_assoc]
  have hscan : scanHeaderGo [] (writeFrameBytes p ++ k) =
      some (clHeaderLine p.length ++ crlf2, p ++ k) := by
    rw [hstream]
    have := scanHeaderGo_header (p ++ k) (clHeaderLine p.length) []
      (by simpa using hnocr) (by simpa using hhlen)
    simpa using this
  have hsplit : splitOnFirst crlf2 (clHeaderLine p.length ++ crlf2) =
      some (clHeaderLine p.length, []) := by
    have := splitOnFirst_crlf2 [] (clHeaderLine p.length) hnocr
    simpa using this
  have hcontains : containsSeq clPrefix (clHeaderLine p.length) = true := by
    rw [containsSeq_iff]
    exact (clPrefix_prefix_clHeaderLine p.length).isInfix
  have hlines : splitLines (clHeaderLine p.length) = [clHeaderLine p.length] :=
    splitLines_single _ (clHeaderLine_no_breaks p.length)
      (by simp [clHeaderLine])
  have hfind : (splitLines (clHeaderLine p.length)).find?
      (fun l => clPrefix.isPrefixOf l) = some (clHeaderLine p.length) := by
    rw [hlines]
    simp [List.find?,
      List.isPrefixOf_iff_prefix.mpr (clPrefix_prefix_clHeaderLine p.length)]
  have hparse : parsePyInt ((clHeaderLine p.length).drop 15) =
      some (p.length : Int) := by
    rw [clHeaderLine_drop15]
    exact parsePyInt_space_digits p.length
  unfold readFrame
  rw [hscan]
  simp only []
  rw [hsplit]
  simp only []
  rw [if_pos hcontains, hfind]
  simp only []
  rw [hparse]
  simp only [Int.toNat_ofNat]
  have := readPayloadGo_exact p.length p p.length [] k sched (by simp)
    (le_refl _)
  simpa using this

/-- C10 (witness). -/
theorem c10_content_length_round_trip_witness :
    readFrame (writeFrameBytes "ab".data ++ "Z".data) [1] =
      some ("ab".data, "Z".data) :=
  c10_content_length_round_trip "ab".data "Z".data [1] (by decide)

end AiDbExplorer
